import Mathlib

/-!
Shallow embedding of the go-tiff32 repository (package tiff): the two
32-bit grayscale pixel-buffer types (Gray32, GrayFloat32), their color
types and color models (color.go), and the TIFF encoder
(Encode / writeIFD / encodeGray32 / encodeGrayFloat32).

Conventions of the embedding:
* Go `uint32` values are Nat with `% 2^32` applied where Go truncates;
  emitted bytes are Nat values in [0, 256).
* Go `int` is Int (no realistic input overflows 64-bit arithmetic in
  claims under consideration).
* Code that can panic (slice indexing / slicing out of range) returns
  Option, where `none` models the panic; I/O sinks are modelled as
  infallible, so an encode that does not panic returns `some bytes`.
-/

namespace Tiff

/-! ## Little-endian byte serialization (encoding/binary, LittleEndian) -/

/-- The two bytes of `binary.LittleEndian.PutUint16`. -/
def le16 (n : Nat) : List Nat := [n % 256, n / 256 % 256]

/-- The four bytes of `binary.LittleEndian.PutUint32`. -/
def le32 (n : Nat) : List Nat :=
  [n % 256, n / 2 ^ 8 % 256, n / 2 ^ 16 % 256, n / 2 ^ 24 % 256]

/-- Go conversion `uint32(i)` from a (signed) int, wrapping modulo 2^32. -/
def u32 (i : Int) : Nat := (i % (2 ^ 32 : Int)).toNat

/-- Bytes of `binary.Write(w, binary.LittleEndian, uint32(i))` for an int expression. -/
def le32I (i : Int) : List Nat := le32 (u32 i)

/-- Read back a little-endian 16-bit value at byte position `k` of a stream. -/
def readLE16 (bs : List Nat) (k : Nat) : Nat := bs.getD k 0 + 256 * bs.getD (k + 1) 0

/-! ## Geometry: the `image` package collaborators (image.Point, image.Rectangle) -/

/-- image.Point. -/
structure Point where
  X : Int
  Y : Int
deriving DecidableEq

/-- image.Rectangle. -/
structure Rectangle where
  Min : Point
  Max : Point
deriving DecidableEq

/-- image.ZR, the zero rectangle. -/
def ZR : Rectangle := ⟨⟨0, 0⟩, ⟨0, 0⟩⟩

/-- image.Point.In: `r.Min.X <= p.X && p.X < r.Max.X && r.Min.Y <= p.Y && p.Y < r.Max.Y`. -/
def Point.In (p : Point) (r : Rectangle) : Bool :=
  decide (r.Min.X ≤ p.X) && decide (p.X < r.Max.X) &&
    decide (r.Min.Y ≤ p.Y) && decide (p.Y < r.Max.Y)

/-- image.Rectangle.Empty: `r.Min.X >= r.Max.X || r.Min.Y >= r.Max.Y`. -/
def Rectangle.Empty (r : Rectangle) : Bool :=
  decide (r.Max.X ≤ r.Min.X) || decide (r.Max.Y ≤ r.Min.Y)

/-- image.Rectangle.Dx. -/
def Rectangle.Dx (r : Rectangle) : Int := r.Max.X - r.Min.X

/-- image.Rectangle.Dy. -/
def Rectangle.Dy (r : Rectangle) : Int := r.Max.Y - r.Min.Y

/-- image.Rectangle.Size (as a Point, like Go). -/
def Rectangle.Size (r : Rectangle) : Point := ⟨r.Dx, r.Dy⟩

/-- image.Rectangle.Intersect: clamp each side, then return ZR if empty. -/
def Rectangle.Intersect (r s : Rectangle) : Rectangle :=
  let r1 : Rectangle :=
    ⟨⟨if r.Min.X < s.Min.X then s.Min.X else r.Min.X,
      if r.Min.Y < s.Min.Y then s.Min.Y else r.Min.Y⟩,
     ⟨if s.Max.X < r.Max.X then s.Max.X else r.Max.X,
      if s.Max.Y < r.Max.Y then s.Max.Y else r.Max.Y⟩⟩
  if r1.Empty then ZR else r1

/-! ## Colors and color models (color.go) -/

/-- Gray32Color: a 32-bit grayscale color (field Y is a uint32). -/
structure Gray32Color where
  Y : Nat
deriving DecidableEq

/-- GrayFloat32Color: the raw bits of a 32-bit float grayscale color. -/
structure GrayFloat32Color where
  Y : Nat
deriving DecidableEq

/-- A value of Go interface type color.Color, as far as this package can
observe it: one of the two package-local concrete color types, or any other
implementation represented by the channel values its RGBA method returns. -/
inductive GoColor where
  | gray32C (c : Gray32Color)
  | grayFloat32C (c : GrayFloat32Color)
  | generic (r g b a : Nat)
deriving DecidableEq

/-- The RGBA method: both package color types return Y on all four channels;
a generic color returns its stored channel values (uint32-truncated). -/
def GoColor.RGBA : GoColor → Nat × Nat × Nat × Nat
  | .gray32C c => (c.Y, c.Y, c.Y, c.Y)
  | .grayFloat32C c => (c.Y, c.Y, c.Y, c.Y)
  | .generic r g b a => (r % 2 ^ 32, g % 2 ^ 32, b % 2 ^ 32, a % 2 ^ 32)

/-- The luma computation shared by both models, in Go uint32 arithmetic:
every operation is mod 2^32, and the final `>> 32` of a uint32 value.
Composing the intermediate mod-2^32 reductions into one final reduction
is arithmetically identical. -/
def lumaUint32 (r g b : Nat) : Nat :=
  (1284195221 * r + 2521145802 * g + 489626272 * b + 2 ^ 31) % 2 ^ 32 / 2 ^ 32

/-- gray32Model: identity on Gray32Color, otherwise the uint32 luma
computation on the RGBA channels (alpha unused). -/
def gray32Model (c : GoColor) : GoColor :=
  match c with
  | .gray32C _ => c
  | _ =>
    let (r, g, b, _) := c.RGBA
    .gray32C ⟨lumaUint32 r g b⟩

/-- gray32FloatModel: the source checks `c.(Gray32Color)` (not
GrayFloat32Color), so only Gray32Color values pass through unchanged;
everything else, including GrayFloat32Color, goes through the luma
computation and comes back as a Gray32Color. -/
def gray32FloatModel (c : GoColor) : GoColor :=
  match c with
  | .gray32C _ => c
  | _ =>
    let (r, g, b, _) := c.RGBA
    .gray32C ⟨lumaUint32 r g b⟩

/-! ## Pixel buffers (Gray32, GrayFloat32) -/

/-- Gray32: flat uint32 sample array, stride (in samples), bounds. -/
structure Gray32 where
  Pix : List Nat
  Stride : Int
  Rect : Rectangle
deriving DecidableEq

/-- GrayFloat32: structurally identical to Gray32. -/
structure GrayFloat32 where
  Pix : List Nat
  Stride : Int
  Rect : Rectangle
deriving DecidableEq

/-- Go slice read `l[i]` with an int index: panics (none) when out of range. -/
def sliceGet (l : List Nat) (i : Int) : Option Nat :=
  if h : 0 ≤ i ∧ i.toNat < l.length then some (l.get ⟨i.toNat, h.2⟩) else none

/-- Gray32.PixOffset. -/
def Gray32.PixOffset (p : Gray32) (x y : Int) : Int :=
  (y - p.Rect.Min.Y) * p.Stride + (x - p.Rect.Min.X)

/-- Gray32.Gray32At: zero color outside bounds, else the stored sample. -/
def Gray32.Gray32At (p : Gray32) (x y : Int) : Option Gray32Color :=
  if (Point.mk x y).In p.Rect = false then some ⟨0⟩
  else match sliceGet p.Pix (p.PixOffset x y) with
    | some v => some ⟨v⟩
    | none => none

/-- Gray32.SetGray32: silent no-op outside bounds, else writes the sample
(panics, i.e. none, when the computed offset is outside the array). -/
def Gray32.SetGray32 (p : Gray32) (x y : Int) (c : Gray32Color) : Option Gray32 :=
  if (Point.mk x y).In p.Rect = false then some p
  else
    let i := p.PixOffset x y
    if 0 ≤ i ∧ i.toNat < p.Pix.length then some { p with Pix := p.Pix.set i.toNat c.Y }
    else none

/-- Gray32.SubImage: intersect, return a fresh zero-value buffer when the
intersection is empty, else an aliased view `Pix[i:]` (slicing with
`0 ≤ i ≤ len` — anything else would panic). -/
def Gray32.SubImage (p : Gray32) (r : Rectangle) : Option Gray32 :=
  let r2 := r.Intersect p.Rect
  if r2.Empty then some ⟨[], 0, ZR⟩
  else
    let i := p.PixOffset r2.Min.X r2.Min.Y
    if 0 ≤ i ∧ i.toNat ≤ p.Pix.length then some ⟨p.Pix.drop i.toNat, p.Stride, r2⟩
    else none

/-- GrayFloat32.PixOffset. -/
def GrayFloat32.PixOffset (p : GrayFloat32) (x y : Int) : Int :=
  (y - p.Rect.Min.Y) * p.Stride + (x - p.Rect.Min.X)

/-- GrayFloat32.Gray32At: note the source returns a Gray32Color here too. -/
def GrayFloat32.Gray32At (p : GrayFloat32) (x y : Int) : Option Gray32Color :=
  if (Point.mk x y).In p.Rect = false then some ⟨0⟩
  else match sliceGet p.Pix (p.PixOffset x y) with
    | some v => some ⟨v⟩
    | none => none

/-- GrayFloat32.SetGray32 (takes a GrayFloat32Color in the source). -/
def GrayFloat32.SetGray32 (p : GrayFloat32) (x y : Int) (c : GrayFloat32Color) :
    Option GrayFloat32 :=
  if (Point.mk x y).In p.Rect = false then some p
  else
    let i := p.PixOffset x y
    if 0 ≤ i ∧ i.toNat < p.Pix.length then some { p with Pix := p.Pix.set i.toNat c.Y }
    else none

/-- GrayFloat32.SubImage. -/
def GrayFloat32.SubImage (p : GrayFloat32) (r : Rectangle) : Option GrayFloat32 :=
  let r2 := r.Intersect p.Rect
  if r2.Empty then some ⟨[], 0, ZR⟩
  else
    let i := p.PixOffset r2.Min.X r2.Min.Y
    if 0 ≤ i ∧ i.toNat ≤ p.Pix.length then some ⟨p.Pix.drop i.toNat, p.Stride, r2⟩
    else none

/-- Well-formedness of a buffer as produced by NewGray32 / any consistent
stride: every in-bounds pixel offset lands inside the sample array. -/
def Gray32.WF (p : Gray32) : Prop :=
  p.Rect.Dx ≤ p.Stride ∧ p.Rect.Dy * p.Stride ≤ (p.Pix.length : Int)

/-- Well-formedness for GrayFloat32. -/
def GrayFloat32.WF (p : GrayFloat32) : Prop :=
  p.Rect.Dx ≤ p.Stride ∧ p.Rect.Dy * p.Stride ≤ (p.Pix.length : Int)

instance (p : Gray32) : Decidable p.WF := by unfold Gray32.WF; infer_instance

instance (p : GrayFloat32) : Decidable p.WF := by unfold GrayFloat32.WF; infer_instance

/-! ## IFD entries and their serialization (color.go, writeIFD / putData) -/

/-- One IFD entry: tag, datatype, data words (all non-negative in every
construction the package performs). -/
structure ifdEntry where
  tag : Nat
  datatype : Nat
  data : List Nat
deriving DecidableEq

instance : Inhabited ifdEntry := ⟨⟨0, 0, []⟩⟩

/-- The array `var lengths = 0, 1, 1, 2, 4, 8` of per-datatype byte lengths. -/
def lengths : List Nat := [0, 1, 1, 2, 4, 8]

/-- The tag order used by `byTag` / `sort.Sort`: ascending `tag`. -/
def tagLE (a b : ifdEntry) : Prop := a.tag ≤ b.tag

instance : DecidableRel tagLE := fun a b => Nat.decLe a.tag b.tag

instance : IsTotal ifdEntry tagLE := ⟨fun a b => Nat.le_total a.tag b.tag⟩

instance : IsTrans ifdEntry tagLE := ⟨fun _ _ _ h h2 => Nat.le_trans h h2⟩

/-- The `sort.Sort(byTag(d))` step. Go uses an unstable comparison sort;
any sorted permutation is produced, and for every list this package ever
sorts the tags are pairwise distinct, so the sorted list is unique and an
insertion sort models the call exactly. -/
def sortByTag (d : List ifdEntry) : List ifdEntry := List.insertionSort tagLE d

/-- ifdEntry.putData: the bytes the entry writes for its data words, in
order (byte/ascii: 1 byte; short: uint16 little-endian; long/rational:
uint32 little-endian; other datatypes write nothing). -/
def putDataBytes (datatype : Nat) (data : List Nat) : List Nat :=
  data.flatMap fun d =>
    if datatype = 1 ∨ datatype = 2 then [d % 256]
    else if datatype = 3 then le16 (d % 2 ^ 16)
    else if datatype = 4 ∨ datatype = 5 then le32 (d % 2 ^ 32)
    else []

/-- Bytes per data word that putData writes for each datatype. -/
def itemLen (dt : Nat) : Nat :=
  if dt = 1 ∨ dt = 2 then 1 else if dt = 3 then 2 else if dt = 4 ∨ dt = 5 then 4 else 0

/-- An IFD entry the Go writeIFD serializes without panicking and with a
consistent declared/actual data length: a real datatype, rational data in
pairs, and a data count far below uint32 wraparound. Every entry this
package constructs satisfies this. -/
def validEntry (e : ifdEntry) : Prop :=
  1 ≤ e.datatype ∧ e.datatype ≤ 5 ∧ (e.datatype = 5 → e.data.length % 2 = 0) ∧
    e.data.length * 8 < 2 ^ 32

instance (e : ifdEntry) : Decidable (validEntry e) := by unfold validEntry; infer_instance

/-- One iteration of the entry loop in writeIFD. State: the current
contents of `buf[8:12]` (the 12-byte scratch buffer is reused across
iterations and bytes 8..11 are only partially overwritten by short data,
so stale bytes of the previous entry leak through), and the pointer area
written so far (its length is the running offset `o`). Returns the 12
bytes written for this entry plus the updated state; `none` models the
panics of `lengths[ent.datatype]` (index out of range) and of `putData`
writing past the target slice. -/
def writeEntry (pstart : Int) (field parea : List Nat) (e : ifdEntry) :
    Option (List Nat × List Nat × List Nat) :=
  if 6 ≤ e.datatype then none
  else
    let count := (if e.datatype = 5 then e.data.length / 2 else e.data.length) % 2 ^ 32
    let datalen := count * lengths.getD e.datatype 0 % 2 ^ 32
    let written := putDataBytes e.datatype e.data
    let head := le16 (e.tag % 2 ^ 16) ++ le16 (e.datatype % 2 ^ 16) ++ le32 count
    if datalen ≤ 4 then
      if 4 < written.length then none
      else
        let field2 := (written ++ field.drop written.length).take 4
        some (head ++ field2, field2, parea)
    else
      if written.length ≠ datalen then none
      else
        let field2 := le32I (pstart + parea.length)
        some (head ++ field2, field2, parea ++ written)

/-- The entry loop of writeIFD: the 12-byte chunk written for each entry
(in order), and the final pointer area. -/
def writeEntries (pstart : Int) :
    List Nat → List Nat → List ifdEntry → Option (List (List Nat) × List Nat)
  | _, parea, [] => some ([], parea)
  | field, parea, e :: rest =>
    match writeEntry pstart field parea e with
    | none => none
    | some (bytes, field2, parea2) =>
      match writeEntries pstart field2 parea2 rest with
      | none => none
      | some (chunks, pfinal) => some (bytes :: chunks, pfinal)

/-- writeIFD: entry count (uint16), sorted 12-byte entries, the zero
next-IFD offset, then the pointer area `parea[:o]`. `pstart` is
`ifdOffset + ifdLen*len(d) + 6`. -/
def writeIFDBytes (ifdOffset : Int) (d : List ifdEntry) : Option (List Nat) :=
  let pstart : Int := ifdOffset + 12 * d.length + 6
  match writeEntries pstart [0, 0, 0, 0] [] (sortByTag d) with
  | none => none
  | some (chunks, parea) =>
    some (le16 (d.length % 2 ^ 16) ++ chunks.flatten ++ le32 0 ++ parea)

/-! ## Raster serialization (encodeGray32 / encodeGrayFloat32) -/

/-- The inner pixel loop of one row: reads `k` samples starting at index
`i`, carrying the predictor state `v0`, and produces their little-endian
bytes. An out-of-range read is the Go panic, hence `none`. -/
def rowLoop (pix : List Nat) (predictor : Bool) : Int → Nat → Nat → Option (List Nat)
  | _, 0, _ => some []
  | i, k + 1, v0 =>
    match sliceGet pix i with
    | none => none
    | some v =>
      let v1 := if predictor then (v % 2 ^ 32 + 2 ^ 32 - v0 % 2 ^ 32) % 2 ^ 32 else v
      let v0n := if predictor then v else v0
      match rowLoop pix predictor (i + 1) k v0n with
      | none => none
      | some rest => some (le32 v1 ++ rest)

/-- The row loop: rows `y, y+1, ...` for `k` rows; each row re-reads `dx`
samples starting at `y*stride` and fully rewrites the row scratch buffer,
so the emitted stream is just the concatenation of the row bytes. -/
def encodeRows (pix : List Nat) (dx : Nat) (stride : Int) (predictor : Bool) :
    Nat → Nat → Option (List Nat)
  | _, 0 => some []
  | y, k + 1 =>
    match rowLoop pix predictor ((y : Int) * stride) dx 0 with
    | none => none
    | some row =>
      match encodeRows pix dx stride predictor (y + 1) k with
      | none => none
      | some rest => some (row ++ rest)

/-- encodeGray32: `make([]byte, dx*4)` panics for negative dx; then the
row loop runs for `dy` rows (none when `dy ≤ 0`). -/
def encodeGray32 (pix : List Nat) (dx dy stride : Int) (predictor : Bool) :
    Option (List Nat) :=
  if dx < 0 then none
  else encodeRows pix dx.toNat stride predictor 0 dy.toNat

/-- encodeGrayFloat32: textually identical to encodeGray32 in the source. -/
def encodeGrayFloat32 (pix : List Nat) (dx dy stride : Int) (predictor : Bool) :
    Option (List Nat) :=
  if dx < 0 then none
  else encodeRows pix dx.toNat stride predictor 0 dy.toNat

/-! ## Encode (color.go) -/

/-- The dynamic type of the image handed to Encode: one of the two
package buffer types, or any other image (of which Encode only ever uses
the bounds). -/
inductive EncodeInput where
  | gray32 (p : Gray32)
  | grayFloat32 (p : GrayFloat32)
  | other (bounds : Rectangle)
deriving DecidableEq

/-- The rectangle `m.Bounds()` of the encode input. -/
def EncodeInput.boundsRect : EncodeInput → Rectangle
  | .gray32 p => p.Rect
  | .grayFloat32 p => p.Rect
  | .other b => b

/-- The IFD entry list Encode constructs (lines 181-236 of the source):
branch-dependent photometric interpretation, samples per pixel, bits per
sample and sample format; predictor is always off and the color map always
empty, so only the ExtraSamples entry is conditional (default branch). -/
def encodeIFDList (m : EncodeInput) (imageLen : Int) : List ifdEntry :=
  let d := m.boundsRect.Size
  let photometricInterpretation : Nat :=
    match m with
    | .gray32 _ => 1
    | .grayFloat32 _ => 1
    | .other _ => 2
  let samplesPerPixel : Nat :=
    match m with
    | .gray32 _ => 1
    | .grayFloat32 _ => 1
    | .other _ => 4
  let bitsPerSample : List Nat :=
    match m with
    | .gray32 _ => [32]
    | .grayFloat32 _ => [32]
    | .other _ => [8, 8, 8, 8]
  let sampleFormat : Nat :=
    match m with
    | .gray32 _ => 1
    | .grayFloat32 _ => 3
    | .other _ => 1
  let extraSamples : Nat :=
    match m with
    | .gray32 _ => 0
    | .grayFloat32 _ => 0
    | .other _ => 1
  let base : List ifdEntry :=
    [⟨256, 3, [u32 d.X]⟩,
     ⟨257, 3, [u32 d.Y]⟩,
     ⟨258, 3, bitsPerSample⟩,
     ⟨259, 3, [1]⟩,
     ⟨262, 3, [photometricInterpretation]⟩,
     ⟨273, 4, [8]⟩,
     ⟨277, 3, [samplesPerPixel]⟩,
     ⟨278, 3, [u32 d.Y]⟩,
     ⟨279, 4, [u32 imageLen]⟩,
     ⟨339, 3, [sampleFormat]⟩,
     ⟨282, 5, [72, 1]⟩,
     ⟨283, 5, [72, 1]⟩,
     ⟨296, 3, [2]⟩]
  if 0 < extraSamples then base ++ [⟨338, 3, [extraSamples]⟩] else base

/-- Encode: magic, little-endian IFD offset `uint32(imageLen+8)` (imageLen
is `d.X*d.Y*4` in every branch), raster bytes (none in the default
branch), then the IFD. The sink is modelled as infallible, so `none`
arises only from panics in the pixel loops. -/
def Encode (m : EncodeInput) : Option (List Nat) :=
  let d := m.boundsRect.Size
  let imageLen : Int := d.X * d.Y * 4
  let raster : Option (List Nat) :=
    match m with
    | .gray32 p => encodeGray32 p.Pix d.X d.Y p.Stride false
    | .grayFloat32 p => encodeGrayFloat32 p.Pix d.X d.Y p.Stride false
    | .other _ => some []
  match raster with
  | none => none
  | some rbytes =>
    match writeIFDBytes (imageLen + 8) (encodeIFDList m imageLen) with
    | none => none
    | some ifdBytes =>
      some ([0x49, 0x49, 0x2A, 0x00] ++ le32I (imageLen + 8) ++ rbytes ++ ifdBytes)

/-- The sample the raster loop reads at (signed) index i, with 0 for an
index outside the array (used only to state raster contents; the loops
themselves panic on a bad index). -/
def sampleAtI (pix : List Nat) (i : Int) : Nat := (sliceGet pix i).getD 0

/-- Spec-side description of the emitted raster: for each row y and column
x (row-major), the four little-endian bytes of the sample stored at index
y*stride + x. -/
def rasterBytes (pix : List Nat) (W H : Nat) (stride : Int) : List Nat :=
  (List.range H).flatMap fun y =>
    (List.range W).flatMap fun x =>
      le32 (sampleAtI pix ((y : Int) * stride + (x : Int)))

/-! ## Helper lemmas -/

theorem sampleAtI_nonneg (pix : List Nat) (i : Int) (h0 : 0 ≤ i) :
    sampleAtI pix i = pix.getD i.toNat 0 := by
  unfold sampleAtI sliceGet
  by_cases h : i.toNat < pix.length
  · rw [dif_pos ⟨h0, h⟩]
    simp [List.getD_eq_getElem?_getD, List.getElem?_eq_getElem h]
  · rw [dif_neg (by omega)]
    rw [List.getD_eq_default _ _ (by omega)]
    rfl

theorem rowLoop_eq (pix : List Nat) (k : Nat) :
    ∀ (i : Int) (v0 : Nat), 0 ≤ i → i + k ≤ (pix.length : Int) →
      rowLoop pix false i k v0 =
        some ((List.range k).flatMap fun j => le32 (sampleAtI pix (i + (j : Int)))) := by
  induction k with
  | zero => intro i v0 _ _; simp [rowLoop]
  | succ k ih =>
    intro i v0 h0 hk
    have hilt : i.toNat < pix.length := by omega
    have hget : sliceGet pix i = some (pix.get ⟨i.toNat, hilt⟩) := by
      unfold sliceGet; rw [dif_pos ⟨h0, hilt⟩]
    have hsample : sampleAtI pix i = pix.get ⟨i.toNat, hilt⟩ := by
      unfold sampleAtI; rw [hget]; rfl
    have hih := ih (i + 1) v0 (by omega) (by push_cast at hk ⊢; omega)
    simp only [rowLoop, hget, hih, Bool.false_eq_true, if_false]
    congr 1
    rw [List.range_succ_eq_map, List.flatMap_cons, List.flatMap_map]
    have hshift : ∀ j : Nat, i + ((Nat.succ j : Nat) : Int) = i + 1 + (j : Int) := by
      intro j; push_cast; ring
    simp only [hshift]
    rw [show i + ((0 : Nat) : Int) = i by simp, hsample]

theorem encodeRows_eq (pix : List Nat) (dx : Nat) (stride : Int)
    (hs0 : 0 ≤ stride) (hdx : (dx : Int) ≤ stride) (k : Nat) :
    ∀ y0 : Nat, ((y0 + k : Nat) : Int) * stride ≤ (pix.length : Int) →
      encodeRows pix dx stride false y0 k =
        some ((List.range k).flatMap fun t =>
          (List.range dx).flatMap fun x =>
            le32 (sampleAtI pix (((y0 + t : Nat) : Int) * stride + (x : Int)))) := by
  induction k with
  | zero => intro y0 _; simp [encodeRows]
  | succ k ih =>
    intro y0 hlen
    have hy1 : ((y0 : Int) + 1) * stride ≤ ((y0 + (k + 1) : Nat) : Int) * stride := by
      apply mul_le_mul_of_nonneg_right _ hs0
      push_cast; omega
    have hrow : (y0 : Int) * stride + (dx : Int) ≤ (pix.length : Int) := by
      nlinarith
    have hbase0 : (0 : Int) ≤ (y0 : Int) * stride := by positivity
    have hr := rowLoop_eq pix dx ((y0 : Int) * stride) 0 hbase0 hrow
    have hih := ih (y0 + 1) (by
      have heq : ((y0 + 1 + k : Nat) : Int) * stride = ((y0 + (k + 1) : Nat) : Int) * stride := by
        push_cast; ring
      rw [heq]; exact hlen)
    simp only [encodeRows, hr, hih]
    congr 1
    rw [List.range_succ_eq_map, List.flatMap_cons, List.flatMap_map]
    congr 1
    congr 1
    funext x
    congr 2
    push_cast
    ring

theorem encodeGray32_eq (pix : List Nat) (W H : Nat) (stride : Int)
    (hs : (W : Int) ≤ stride) (hlen : (H : Int) * stride ≤ (pix.length : Int)) :
    encodeGray32 pix (W : Int) (H : Int) stride false = some (rasterBytes pix W H stride) := by
  have hs0 : (0 : Int) ≤ stride := le_trans (by positivity) hs
  unfold encodeGray32
  rw [if_neg (by omega)]
  simp only [Int.toNat_natCast]
  rw [encodeRows_eq pix W stride hs0 hs H 0 (by
    have heq : ((0 + H : Nat) : Int) * stride = (H : Int) * stride := by push_cast; ring
    rw [heq]; exact hlen)]
  unfold rasterBytes
  congr 1
  apply List.flatMap_congr
  intro t _
  congr 1
  funext x
  congr 2
  push_cast
  ring

theorem encodeGrayFloat32_eq (pix : List Nat) (W H : Nat) (stride : Int)
    (hs : (W : Int) ≤ stride) (hlen : (H : Int) * stride ≤ (pix.length : Int)) :
    encodeGrayFloat32 pix (W : Int) (H : Int) stride false =
      some (rasterBytes pix W H stride) := by
  have h := encodeGray32_eq pix W H stride hs hlen
  unfold encodeGray32 at h
  unfold encodeGrayFloat32
  exact h

theorem take_flatMap {β : Type} (f : Nat → List β) (l : List Nat) :
    ∀ W : Nat, W ≤ l.length →
      (List.range W).flatMap (fun x => f (l.getD x 0)) = (l.take W).flatMap f := by
  intro W
  induction W with
  | zero => intro _; simp
  | succ W ih =>
    intro hW
    have hWlt : W < l.length := by omega
    rw [List.range_succ, List.flatMap_append, ih (by omega)]
    rw [List.take_succ, List.flatMap_append]
    simp [List.getElem?_eq_getElem hWlt, List.getD_eq_getElem?_getD]

theorem grid_flatMap {β : Type} (f : Nat → List β) (W : Nat) :
    ∀ (H : Nat) (l : List Nat), l.length = W * H →
      (List.range H).flatMap
          (fun y => (List.range W).flatMap fun x => f (l.getD (y * W + x) 0)) =
        l.flatMap f := by
  intro H
  induction H with
  | zero =>
    intro l hl
    have : l = [] := List.length_eq_zero.mp (by omega)
    subst this
    simp
  | succ H ih =>
    intro l hl
    have hWle : W ≤ l.length := by
      have : W * (H + 1) = W + W * H := by ring_nf
      omega
    have hdroplen : (l.drop W).length = W * H := by
      simp only [List.length_drop]
      have : W * (H + 1) = W + W * H := by ring_nf
      omega
    rw [List.range_succ_eq_map, List.flatMap_cons, List.flatMap_map]
    have hshift : ∀ (y x : Nat), l.getD (Nat.succ y * W + x) 0 = (l.drop W).getD (y * W + x) 0 := by
      intro y x
      have harr : Nat.succ y * W + x = W + (y * W + x) := by
        simp only [Nat.succ_eq_add_one]; ring_nf
      rw [harr]
      simp [List.getD_eq_getElem?_getD, List.getElem?_drop]
    simp only [hshift]
    rw [ih (l.drop W) hdroplen]
    have hhead :
        (List.range W).flatMap (fun x => f (l.getD (0 * W + x) 0)) =
          (l.take W).flatMap f := by
      simp only [Nat.zero_mul, Nat.zero_add]
      exact take_flatMap f l W hWle
    rw [hhead]
    rw [← List.flatMap_append, List.take_append_drop]

theorem rasterBytes_contiguous (pix : List Nat) (W H : Nat)
    (hlen : pix.length = W * H) :
    rasterBytes pix W H (W : Int) = pix.flatMap le32 := by
  unfold rasterBytes
  have hsample : ∀ (y x : Nat),
      sampleAtI pix ((y : Int) * (W : Int) + (x : Int)) = pix.getD (y * W + x) 0 := by
    intro y x
    rw [show (y : Int) * (W : Int) + (x : Int) = ((y * W + x : Nat) : Int) by push_cast; ring]
    rw [sampleAtI_nonneg _ _ (by positivity), Int.toNat_natCast]
  simp only [hsample]
  exact grid_flatMap le32 W H pix hlen

theorem putDataBytes_length (dt : Nat) (l : List Nat) :
    (putDataBytes dt l).length = l.length * itemLen dt := by
  induction l with
  | nil => simp [putDataBytes]
  | cons d rest ih =>
    have hcons : putDataBytes dt (d :: rest) =
        (if dt = 1 ∨ dt = 2 then [d % 256]
          else if dt = 3 then le16 (d % 2 ^ 16)
          else if dt = 4 ∨ dt = 5 then le32 (d % 2 ^ 32)
          else []) ++ putDataBytes dt rest := by
      unfold putDataBytes
      rw [List.flatMap_cons]
    rw [hcons, List.length_append, ih]
    unfold itemLen
    split_ifs <;> simp [le16, le32] <;> omega

theorem writeEntry_isSome (pstart : Int) (field parea : List Nat) (e : ifdEntry)
    (hv : validEntry e) : (writeEntry pstart field parea e).isSome := by
  obtain ⟨h1, h5, heven, hsize⟩ := hv
  obtain ⟨tag, dt, data⟩ := e
  simp only at h1 h5 heven hsize
  have hwl := putDataBytes_length dt data
  interval_cases dt <;>
    simp only [writeEntry, itemLen, lengths] at hwl ⊢ <;>
    rw [if_neg (by omega)] <;>
    norm_num at hwl ⊢ <;>
    split_ifs <;>
    simp_all <;>
    omega

theorem writeEntry_shape (pstart : Int) (field parea : List Nat) (e : ifdEntry)
    (b f2 p2 : List Nat) (hf : field.length = 4)
    (h : writeEntry pstart field parea e = some (b, f2, p2)) :
    f2.length = 4 ∧ b.length = 12 ∧ b.take 2 = le16 (e.tag % 2 ^ 16) := by
  have key : ∀ (cnt : Nat) (fnew : List Nat), fnew.length = 4 →
      b = le16 (e.tag % 2 ^ 16) ++ le16 (e.datatype % 2 ^ 16) ++ le32 cnt ++ fnew →
      f2 = fnew →
      f2.length = 4 ∧ b.length = 12 ∧ b.take 2 = le16 (e.tag % 2 ^ 16) := by
    intro cnt fnew hlen hb hf2
    subst hb
    subst hf2
    refine ⟨hlen, by simp [le16, le32, hlen], ?_⟩
    rw [List.append_assoc, List.append_assoc]
    exact List.take_left' (by simp [le16])
  simp only [writeEntry] at h
  split_ifs at h <;>
    first
      | exact Option.noConfusion h
      | (simp only [Option.some.injEq, Prod.mk.injEq] at h
         refine key _ _ ?_ h.1.symm h.2.1.symm
         first
           | (simp only [List.length_take, List.length_append, List.length_drop, hf]; omega)
           | simp [le32I, le32])

theorem writeEntries_isSome (pstart : Int) (es : List ifdEntry)
    (hv : ∀ e ∈ es, validEntry e) :
    ∀ field parea, (writeEntries pstart field parea es).isSome := by
  induction es with
  | nil => intro field parea; simp [writeEntries]
  | cons e rest ih =>
    intro field parea
    have h1 := writeEntry_isSome pstart field parea e (hv e (List.mem_cons_self e rest))
    obtain ⟨⟨b, f2, p2⟩, heq⟩ := Option.isSome_iff_exists.mp h1
    have h2 := ih (fun x hx => hv x (List.mem_cons_of_mem e hx)) f2 p2
    obtain ⟨⟨chunks, pf⟩, heq2⟩ := Option.isSome_iff_exists.mp h2
    simp [writeEntries, heq, heq2]

theorem writeEntries_chunks (pstart : Int) (es : List ifdEntry) :
    ∀ field parea chunks pf, field.length = 4 →
      writeEntries pstart field parea es = some (chunks, pf) →
      chunks.length = es.length ∧
        ∀ k, k < es.length →
          (chunks.getD k []).length = 12 ∧
            (chunks.getD k []).take 2 = le16 ((es.getD k default).tag % 2 ^ 16) := by
  induction es with
  | nil =>
    intro field parea chunks pf hf h
    simp only [writeEntries, Option.some.injEq, Prod.mk.injEq] at h
    obtain ⟨rfl, rfl⟩ := h
    simp
  | cons e rest ih =>
    intro field parea chunks pf hf h
    simp only [writeEntries] at h
    cases heq : writeEntry pstart field parea e with
    | none => simp only [heq] at h; exact Option.noConfusion h
    | some out =>
      obtain ⟨b, f2, p2⟩ := out
      simp only [heq] at h
      cases heq2 : writeEntries pstart f2 p2 rest with
      | none => simp only [heq2] at h; exact Option.noConfusion h
      | some out2 =>
        obtain ⟨chunks2, pf2⟩ := out2
        simp only [heq2, Option.some.injEq, Prod.mk.injEq] at h
        obtain ⟨rfl, rfl⟩ := h
        obtain ⟨hf2len, hblen, hbtake⟩ := writeEntry_shape pstart field parea e b f2 p2 hf heq
        obtain ⟨hlen2, hrest⟩ := ih f2 p2 chunks2 pf2 hf2len heq2
        refine ⟨by simp [hlen2], ?_⟩
        intro k hk
        cases k with
        | zero => simpa using ⟨hblen, hbtake⟩
        | succ k =>
          have := hrest k (by simpa using hk)
          simpa using this

theorem chunks_mem_length (chunks : List (List Nat))
    (h : ∀ k, k < chunks.length → (chunks.getD k []).length = 12) :
    ∀ c ∈ chunks, c.length = 12 := by
  intro c hc
  obtain ⟨⟨n, hn⟩, rfl⟩ := List.mem_iff_get.mp hc
  have h2 := h n hn
  rw [List.getD_eq_getElem?_getD, List.getElem?_eq_getElem hn] at h2
  simpa using h2

theorem flatten_length_12 (chunks : List (List Nat))
    (h : ∀ c ∈ chunks, c.length = 12) : chunks.flatten.length = 12 * chunks.length := by
  induction chunks with
  | nil => simp
  | cons c cs ih =>
    simp only [List.flatten_cons, List.length_append, List.length_cons]
    rw [h c (by simp), ih (fun x hx => h x (by simp [hx]))]
    omega

theorem flatten_getD_12 (chunks : List (List Nat)) :
    ∀ (hl : ∀ c ∈ chunks, c.length = 12) (k r : Nat), k < chunks.length → r < 12 →
      chunks.flatten.getD (12 * k + r) 0 = (chunks.getD k []).getD r 0 := by
  induction chunks with
  | nil => intro _ k r hk _; simp at hk
  | cons c cs ih =>
    intro h k r hk hr
    cases k with
    | zero =>
      simp only [List.flatten_cons, Nat.mul_zero, Nat.zero_add, List.getD_cons_zero]
      exact List.getD_append _ _ _ _ (by rw [h c (by simp)]; omega)
    | succ k =>
      simp only [List.flatten_cons, List.getD_cons_succ]
      rw [List.getD_append_right _ _ _ _ (by rw [h c (by simp)]; omega)]
      rw [h c (by simp)]
      rw [show 12 * (k + 1) + r - 12 = 12 * k + r by omega]
      exact ih (fun x hx => h x (by simp [hx])) k r (by simpa using hk) hr

theorem take2_getD (c : List Nat) (t : Nat) (h : c.take 2 = le16 t) :
    c.getD 0 0 = t % 256 ∧ c.getD 1 0 = t / 256 % 256 := by
  constructor
  · have h0 : (c.take 2).getD 0 0 = t % 256 := by rw [h]; rfl
    rw [← h0]
    simp only [List.getD_eq_getElem?_getD, List.getElem?_take]
    norm_num
  · have h1 : (c.take 2).getD 1 0 = t / 256 % 256 := by rw [h]; rfl
    rw [← h1]
    simp only [List.getD_eq_getElem?_getD, List.getElem?_take]
    norm_num

theorem writeIFD_tags (off : Int) (d : List ifdEntry)
    (hv : ∀ e ∈ d, validEntry e) :
    ∃ bs, writeIFDBytes off d = some bs ∧
      ∀ k, k < d.length →
        readLE16 bs (2 + 12 * k) = ((sortByTag d).getD k default).tag % 2 ^ 16 := by
  have hperm : (sortByTag d).Perm d := List.perm_insertionSort tagLE d
  have hvs : ∀ e ∈ sortByTag d, validEntry e := fun e he => hv e (hperm.subset he)
  have hsome := writeEntries_isSome ((off + 12 * d.length) + 6) (sortByTag d) hvs [0, 0, 0, 0] []
  obtain ⟨⟨chunks, pa⟩, heq⟩ := Option.isSome_iff_exists.mp hsome
  obtain ⟨hclen, hfacts⟩ :=
    writeEntries_chunks ((off + 12 * d.length) + 6) (sortByTag d) [0, 0, 0, 0] [] chunks pa rfl heq
  have hsortlen : (sortByTag d).length = d.length := hperm.length_eq
  have hmem12 : ∀ c ∈ chunks, c.length = 12 :=
    chunks_mem_length chunks (fun k hk => (hfacts k (by omega)).1)
  have hflatlen : chunks.flatten.length = 12 * chunks.length := flatten_length_12 chunks hmem12
  refine ⟨le16 (d.length % 2 ^ 16) ++ chunks.flatten ++ le32 0 ++ pa, ?_, ?_⟩
  · simp only [writeIFDBytes, heq]
  · intro k hk
    have hk2 : k < chunks.length := by omega
    have hgd : ∀ r : Nat, r < 12 →
        (le16 (d.length % 2 ^ 16) ++ chunks.flatten ++ le32 0 ++ pa).getD (2 + (12 * k + r)) 0 =
          (chunks.getD k []).getD r 0 := by
      intro r hr
      rw [List.append_assoc, List.append_assoc]
      rw [List.getD_append_right _ _ _ _ (by simp [le16])]
      rw [show 2 + (12 * k + r) - (le16 (d.length % 2 ^ 16)).length = 12 * k + r by
        simp [le16]]
      rw [← List.append_assoc]
      rw [List.getD_append _ _ _ _ (by
        simp only [List.length_append, hflatlen]
        have : 12 * k + r < 12 * chunks.length := by omega
        omega)]
      rw [List.getD_append _ _ _ _ (by omega)]
      exact flatten_getD_12 chunks hmem12 k r hk2 hr
    obtain ⟨hb0, hb1⟩ := take2_getD (chunks.getD k [])
      (((sortByTag d).getD k default).tag % 2 ^ 16) ((hfacts k (by omega)).2)
    unfold readLE16
    rw [show 2 + 12 * k = 2 + (12 * k + 0) by omega, hgd 0 (by omega)]
    rw [show 2 + (12 * k + 0) + 1 = 2 + (12 * k + 1) by omega, hgd 1 (by omega)]
    rw [hb0, hb1]
    omega

theorem writeIFDBytes_isSome (off : Int) (d : List ifdEntry)
    (hv : ∀ e ∈ d, validEntry e) : ∃ bs, writeIFDBytes off d = some bs := by
  obtain ⟨bs, h, _⟩ := writeIFD_tags off d hv
  exact ⟨bs, h⟩

theorem encodeIFDList_valid (m : EncodeInput) (il : Int) :
    ∀ e ∈ encodeIFDList m il, validEntry e := by
  intro e he
  cases m <;> simp [encodeIFDList] at he <;>
    rcases he with rfl | rfl | rfl | rfl | rfl | rfl | rfl | rfl | rfl | rfl | rfl | rfl | rfl |
      rfl <;> simp [validEntry]

theorem offset_bound {a b s dx dy len : Int}
    (ha0 : 0 ≤ a) (hadx : a < dx) (hb0 : 0 ≤ b) (hbdy : b < dy)
    (hsdx : dx ≤ s) (hlen : dy * s ≤ len) : 0 ≤ b * s + a ∧ b * s + a < len := by
  have hs0 : 0 ≤ s := le_trans (le_of_lt (lt_of_le_of_lt ha0 hadx)) hsdx
  refine ⟨by positivity, ?_⟩
  have h1 : b * s + a < (b + 1) * s := by nlinarith
  have h3 : (b + 1) * s ≤ dy * s := mul_le_mul_of_nonneg_right (by omega) hs0
  omega

theorem gray32_offset_in_range (p : Gray32) (x y : Int) (hwf : p.WF)
    (hin : (Point.mk x y).In p.Rect = true) :
    0 ≤ p.PixOffset x y ∧ p.PixOffset x y < (p.Pix.length : Int) := by
  obtain ⟨h1, h2⟩ := hwf
  simp only [Point.In, Bool.and_eq_true, decide_eq_true_eq] at hin
  obtain ⟨⟨⟨hx1, hx2⟩, hy1⟩, hy2⟩ := hin
  have := @offset_bound (x - p.Rect.Min.X) (y - p.Rect.Min.Y) p.Stride
    p.Rect.Dx p.Rect.Dy (p.Pix.length : Int)
    (by omega) (by unfold Rectangle.Dx; omega) (by omega)
    (by unfold Rectangle.Dy; omega) h1 h2
  exact this

theorem grayFloat32_offset_in_range (p : GrayFloat32) (x y : Int) (hwf : p.WF)
    (hin : (Point.mk x y).In p.Rect = true) :
    0 ≤ p.PixOffset x y ∧ p.PixOffset x y < (p.Pix.length : Int) := by
  obtain ⟨h1, h2⟩ := hwf
  simp only [Point.In, Bool.and_eq_true, decide_eq_true_eq] at hin
  obtain ⟨⟨⟨hx1, hx2⟩, hy1⟩, hy2⟩ := hin
  have := @offset_bound (x - p.Rect.Min.X) (y - p.Rect.Min.Y) p.Stride
    p.Rect.Dx p.Rect.Dy (p.Pix.length : Int)
    (by omega) (by unfold Rectangle.Dx; omega) (by omega)
    (by unfold Rectangle.Dy; omega) h1 h2
  exact this

theorem u32_natCast (n : Nat) : u32 ((n : Nat) : Int) = n % 2 ^ 32 := by
  unfold u32
  omega

theorem readLE16_append_le16 (c : Nat) (l : List Nat) (k : Nat) :
    readLE16 (le16 c ++ l) (2 + k) = readLE16 l k := by
  unfold readLE16
  rw [List.getD_append_right _ _ _ _ (by simp only [le16, List.length_cons, List.length_nil]; omega)]
  rw [List.getD_append_right _ _ _ _ (by simp only [le16, List.length_cons, List.length_nil]; omega)]
  have h2 : (le16 c).length = 2 := rfl
  rw [h2, show 2 + k - 2 = k by omega, show 2 + k + 1 - 2 = k + 1 by omega]

theorem readLE16_prefix12 (c1 X : List Nat) (hlen : c1.length = 12) (k : Nat)
    (hk : k + 1 < 12) : readLE16 (c1 ++ X) k = readLE16 c1 k := by
  unfold readLE16
  rw [List.getD_append _ _ _ _ (by omega), List.getD_append _ _ _ _ (by omega)]

theorem readLE16_skip12 (c1 X : List Nat) (hlen : c1.length = 12) (k : Nat)
    (hk : 12 ≤ k) : readLE16 (c1 ++ X) k = readLE16 X (k - 12) := by
  unfold readLE16
  rw [List.getD_append_right _ _ _ _ (by omega), List.getD_append_right _ _ _ _ (by omega)]
  rw [hlen, show k + 1 - 12 = k - 12 + 1 by omega]

theorem writeIFD_first_two (off : Int) (d : List ifdEntry) (vw vh : Nat)
    (rest : List ifdEntry)
    (hsort : sortByTag d = ⟨256, 3, [vw]⟩ :: ⟨257, 3, [vh]⟩ :: rest)
    (bs : List Nat) (hbs : writeIFDBytes off d = some bs) :
    readLE16 bs 10 = vw % 2 ^ 16 ∧ readLE16 bs 22 = vh % 2 ^ 16 := by
  simp only [writeIFDBytes, hsort] at hbs
  have h1 : ∀ ps : Int, writeEntry ps [0, 0, 0, 0] [] ⟨256, 3, [vw]⟩ =
      some ([0, 1, 3, 0, 1, 0, 0, 0, vw % 2 ^ 16 % 256, vw % 2 ^ 16 / 256 % 256, 0, 0],
        [vw % 2 ^ 16 % 256, vw % 2 ^ 16 / 256 % 256, 0, 0], []) := fun _ => by
    simp [writeEntry, putDataBytes, le16, le32, lengths]
  have h2 : ∀ ps : Int, writeEntry ps [vw % 2 ^ 16 % 256, vw % 2 ^ 16 / 256 % 256, 0, 0] []
        ⟨257, 3, [vh]⟩ =
      some ([1, 1, 3, 0, 1, 0, 0, 0, vh % 2 ^ 16 % 256, vh % 2 ^ 16 / 256 % 256, 0, 0],
        [vh % 2 ^ 16 % 256, vh % 2 ^ 16 / 256 % 256, 0, 0], []) := fun _ => by
    simp [writeEntry, putDataBytes, le16, le32, lengths]
  simp only [writeEntries, h1, h2] at hbs
  cases hrest : writeEntries (off + 12 * (d.length : Int) + 6)
      [vh % 2 ^ 16 % 256, vh % 2 ^ 16 / 256 % 256, 0, 0] [] rest with
  | none => rw [hrest] at hbs; exact Option.noConfusion hbs
  | some out =>
    obtain ⟨chunks, pf⟩ := out
    rw [hrest] at hbs
    simp only [Option.some.injEq] at hbs
    subst hbs
    rw [List.append_assoc, List.append_assoc]
    rw [List.flatten_cons, List.flatten_cons]
    constructor
    · rw [show (10 : Nat) = 2 + 8 by rfl, readLE16_append_le16]
      rw [List.append_assoc]
      rw [readLE16_prefix12 _ _ (by rfl) 8 (by omega)]
      show vw % 2 ^ 16 % 256 + 256 * (vw % 2 ^ 16 / 256 % 256) = vw % 2 ^ 16
      omega
    · rw [show (22 : Nat) = 2 + 20 by rfl, readLE16_append_le16]
      rw [List.append_assoc]
      rw [readLE16_skip12 _ _ (by rfl) 20 (by omega)]
      rw [List.append_assoc]
      rw [readLE16_prefix12 _ _ (by rfl) (20 - 12) (by omega)]
      show vh % 2 ^ 16 % 256 + 256 * (vh % 2 ^ 16 / 256 % 256) = vh % 2 ^ 16
      omega

/-! ## Claim theorems -/

/-- C5: for every list of valid IFD entries with pairwise-distinct 16-bit
tags — every encode call builds such a list, in any construction order —
writeIFD serializes without failing, and the tag fields of the 12-byte
entries, read back from the output stream at their fixed positions, are
strictly ascending. -/
theorem ifd_tags_strictly_ascending (off : Int) (d : List ifdEntry)
    (hv : ∀ e ∈ d, validEntry e)
    (htag : ∀ e ∈ d, e.tag < 2 ^ 16)
    (hne : d.Pairwise (fun a b => a.tag ≠ b.tag)) :
    ∃ bs, writeIFDBytes off d = some bs ∧
      ∀ i j, i < j → j < d.length →
        readLE16 bs (2 + 12 * i) < readLE16 bs (2 + 12 * j) := by
  obtain ⟨bs, hbs, htags⟩ := writeIFD_tags off d hv
  refine ⟨bs, hbs, ?_⟩
  intro i j hij hj
  have hperm : (sortByTag d).Perm d := List.perm_insertionSort tagLE d
  have hlen : (sortByTag d).length = d.length := hperm.length_eq
  have hsorted : List.Sorted tagLE (sortByTag d) := List.sorted_insertionSort tagLE d
  have hne2 : (sortByTag d).Pairwise (fun a b => a.tag ≠ b.tag) :=
    (hperm.pairwise_iff (fun hxy => Ne.symm hxy)).mpr hne
  have hlt : (sortByTag d).Pairwise (fun a b => a.tag < b.tag) :=
    (List.Pairwise.and hsorted hne2).imp fun hab => lt_of_le_of_ne hab.1 hab.2
  have hij2 := List.pairwise_iff_get.mp hlt ⟨i, by omega⟩ ⟨j, by omega⟩ hij
  have hgi : (sortByTag d).getD i default = (sortByTag d).get ⟨i, by omega⟩ := by
    rw [List.getD_eq_getElem?_getD, List.getElem?_eq_getElem (by omega : i < (sortByTag d).length)]
    simp [List.get_eq_getElem]
  have hgj : (sortByTag d).getD j default = (sortByTag d).get ⟨j, by omega⟩ := by
    rw [List.getD_eq_getElem?_getD, List.getElem?_eq_getElem (by omega : j < (sortByTag d).length)]
    simp [List.get_eq_getElem]
  have hti : ((sortByTag d).get ⟨i, by omega⟩).tag < 2 ^ 16 :=
    htag _ (hperm.subset (List.get_mem _ i _))
  have htj : ((sortByTag d).get ⟨j, by omega⟩).tag < 2 ^ 16 :=
    htag _ (hperm.subset (List.get_mem _ j _))
  rw [htags i (by omega), htags j hj, hgi, hgj,
    Nat.mod_eq_of_lt hti, Nat.mod_eq_of_lt htj]
  exact hij2

/-- Witness for C5: a three-entry list constructed out of tag order
(SampleFormat, ImageWidth, RowsPerStrip) still serializes with strictly
ascending tag fields. -/
theorem ifd_tags_strictly_ascending_witness :
    ((∀ e ∈ ([⟨339, 3, [1]⟩, ⟨256, 3, [2]⟩, ⟨278, 3, [9]⟩] : List ifdEntry), validEntry e) ∧
        (∀ e ∈ ([⟨339, 3, [1]⟩, ⟨256, 3, [2]⟩, ⟨278, 3, [9]⟩] : List ifdEntry), e.tag < 2 ^ 16) ∧
        ([⟨339, 3, [1]⟩, ⟨256, 3, [2]⟩, ⟨278, 3, [9]⟩] : List ifdEntry).Pairwise
          (fun a b => a.tag ≠ b.tag)) ∧
      ∃ bs, writeIFDBytes 16 ([⟨339, 3, [1]⟩, ⟨256, 3, [2]⟩, ⟨278, 3, [9]⟩] : List ifdEntry) =
          some bs ∧
        ∀ i j, i < j →
          j < ([⟨339, 3, [1]⟩, ⟨256, 3, [2]⟩, ⟨278, 3, [9]⟩] : List ifdEntry).length →
          readLE16 bs (2 + 12 * i) < readLE16 bs (2 + 12 * j) :=
  ⟨⟨by decide, by decide, by decide⟩,
    ifd_tags_strictly_ascending 16 [⟨339, 3, [1]⟩, ⟨256, 3, [2]⟩, ⟨278, 3, [9]⟩]
      (by decide) (by decide) (by decide)⟩

/-- C1: encoding a W×H Gray32 buffer (W,H > 0, stride = W, row-major
samples, sizes small enough for the 32-bit offset field) writes exactly
the magic bytes 49 49 2A 00, the 4-byte little-endian IFD offset
8 + W*H*4, then the W*H little-endian 4-byte samples in row-major order,
then the IFD, whose entry list records SampleFormat 1, BitsPerSample 32,
ImageWidth W and ImageLength H. -/
theorem encode_gray32_stream (W H : Nat) (p : Gray32)
    (hW : 0 < W) (hH : 0 < H)
    (hdx : p.Rect.Dx = (W : Int)) (hdy : p.Rect.Dy = (H : Int))
    (hstride : p.Stride = (W : Int))
    (hlen : p.Pix.length = W * H)
    (hfit : 8 + W * H * 4 < 2 ^ 32) :
    ∃ ifdBytes,
      writeIFDBytes ((W : Int) * (H : Int) * 4 + 8)
          (encodeIFDList (.gray32 p) ((W : Int) * (H : Int) * 4)) = some ifdBytes ∧
      Encode (.gray32 p) =
        some ([0x49, 0x49, 0x2A, 0x00] ++ le32 (8 + W * H * 4) ++
          p.Pix.flatMap le32 ++ ifdBytes) ∧
      ⟨339, 3, [1]⟩ ∈ encodeIFDList (.gray32 p) ((W : Int) * (H : Int) * 4) ∧
      ⟨258, 3, [32]⟩ ∈ encodeIFDList (.gray32 p) ((W : Int) * (H : Int) * 4) ∧
      ⟨256, 3, [W]⟩ ∈ encodeIFDList (.gray32 p) ((W : Int) * (H : Int) * 4) ∧
      ⟨257, 3, [H]⟩ ∈ encodeIFDList (.gray32 p) ((W : Int) * (H : Int) * 4) := by
  have hWH : W * H < 2 ^ 32 := by omega
  have hWle : W ≤ W * H := Nat.le_mul_of_pos_right W hH
  have hHle : H ≤ W * H := Nat.le_mul_of_pos_left H hW
  have hWlt : W < 2 ^ 32 := by omega
  have hHlt : H < 2 ^ 32 := by omega
  have hW16 : u32 ((W : Nat) : Int) = W := by rw [u32_natCast]; exact Nat.mod_eq_of_lt hWlt
  have hH16 : u32 ((H : Nat) : Int) = H := by rw [u32_natCast]; exact Nat.mod_eq_of_lt hHlt
  obtain ⟨ifdBytes, hifd⟩ := writeIFDBytes_isSome ((W : Int) * (H : Int) * 4 + 8)
    (encodeIFDList (.gray32 p) ((W : Int) * (H : Int) * 4))
    (encodeIFDList_valid _ _)
  refine ⟨ifdBytes, hifd, ?_, ?_, ?_, ?_, ?_⟩
  · have hraster : encodeGray32 p.Pix (W : Int) (H : Int) p.Stride false =
        some (p.Pix.flatMap le32) := by
      rw [hstride]
      rw [encodeGray32_eq p.Pix W H (W : Int) le_rfl
        (by rw [hlen]; push_cast; nlinarith)]
      rw [rasterBytes_contiguous p.Pix W H hlen]
    have hoffsetbytes : le32I ((W : Int) * (H : Int) * 4 + 8) = le32 (8 + W * H * 4) := by
      unfold le32I
      rw [show (W : Int) * (H : Int) * 4 + 8 = ((W * H * 4 + 8 : Nat) : Int) by push_cast; ring]
      rw [u32_natCast, Nat.mod_eq_of_lt (by omega)]
      congr 1
      omega
    unfold Encode
    simp only [EncodeInput.boundsRect, Rectangle.Size, hdx, hdy, hraster, hifd, hoffsetbytes]
  · simp [encodeIFDList]
  · simp [encodeIFDList]
  · simp only [encodeIFDList, EncodeInput.boundsRect, Rectangle.Size, hdx, hW16]
    simp
  · simp only [encodeIFDList, EncodeInput.boundsRect, Rectangle.Size, hdy, hH16]
    simp

/-- Witness for C1: the 2×1 buffer with samples [1, 0xFFFFFFFF] from the
spec scenario; its raster bytes are 01 00 00 00 FF FF FF FF and its
IFD-offset field encodes 0x10. -/
theorem encode_gray32_stream_witness :
    ([1, 4294967295] : List Nat).flatMap le32 = [1, 0, 0, 0, 255, 255, 255, 255] ∧
      le32 (8 + 2 * 1 * 4) = [16, 0, 0, 0] ∧
      (∃ ifdBytes,
        writeIFDBytes ((2 : Int) * (1 : Int) * 4 + 8)
            (encodeIFDList (.gray32 ⟨[1, 4294967295], 2, ⟨⟨0, 0⟩, ⟨2, 1⟩⟩⟩)
              ((2 : Int) * (1 : Int) * 4)) = some ifdBytes ∧
        Encode (.gray32 ⟨[1, 4294967295], 2, ⟨⟨0, 0⟩, ⟨2, 1⟩⟩⟩) =
          some ([0x49, 0x49, 0x2A, 0x00] ++ le32 (8 + 2 * 1 * 4) ++
            ([1, 4294967295] : List Nat).flatMap le32 ++ ifdBytes) ∧
        ⟨339, 3, [1]⟩ ∈ encodeIFDList (.gray32 ⟨[1, 4294967295], 2, ⟨⟨0, 0⟩, ⟨2, 1⟩⟩⟩)
          ((2 : Int) * (1 : Int) * 4) ∧
        ⟨258, 3, [32]⟩ ∈ encodeIFDList (.gray32 ⟨[1, 4294967295], 2, ⟨⟨0, 0⟩, ⟨2, 1⟩⟩⟩)
          ((2 : Int) * (1 : Int) * 4) ∧
        ⟨256, 3, [2]⟩ ∈ encodeIFDList (.gray32 ⟨[1, 4294967295], 2, ⟨⟨0, 0⟩, ⟨2, 1⟩⟩⟩)
          ((2 : Int) * (1 : Int) * 4) ∧
        ⟨257, 3, [1]⟩ ∈ encodeIFDList (.gray32 ⟨[1, 4294967295], 2, ⟨⟨0, 0⟩, ⟨2, 1⟩⟩⟩)
          ((2 : Int) * (1 : Int) * 4)) :=
  ⟨by decide, by decide,
    encode_gray32_stream 2 1 ⟨[1, 4294967295], 2, ⟨⟨0, 0⟩, ⟨2, 1⟩⟩⟩
      (by decide) (by decide) (by decide) (by decide) (by decide) (by decide) (by decide)⟩

/-- C2: encoding a W×H GrayFloat32 buffer emits an IFD entry list whose
SampleFormat entry carries value 3 (IEEE float), not 1, and the raster is
the 4-byte little-endian encoding of the stored 32-bit sample words in
row-major order (rasterBytes), so the bit patterns of the samples are
reproduced exactly; reinterpreting each emitted 4-byte group as an
IEEE-754 float therefore recovers the stored float bits bit-for-bit. -/
theorem encode_grayfloat32_stream (W H : Nat) (p : GrayFloat32)
    (hdx : p.Rect.Dx = (W : Int)) (hdy : p.Rect.Dy = (H : Int))
    (hwf : p.WF) :
    ∃ ifdBytes,
      Encode (.grayFloat32 p) =
        some ([0x49, 0x49, 0x2A, 0x00] ++ le32I ((W : Int) * (H : Int) * 4 + 8) ++
          rasterBytes p.Pix W H p.Stride ++ ifdBytes) ∧
      ⟨339, 3, [3]⟩ ∈ encodeIFDList (.grayFloat32 p) ((W : Int) * (H : Int) * 4) ∧
      ⟨339, 3, [1]⟩ ∉ encodeIFDList (.grayFloat32 p) ((W : Int) * (H : Int) * 4) := by
  obtain ⟨h1, h2⟩ := hwf
  rw [hdx] at h1
  rw [hdy] at h2
  obtain ⟨ifdBytes, hifd⟩ := writeIFDBytes_isSome ((W : Int) * (H : Int) * 4 + 8)
    (encodeIFDList (.grayFloat32 p) ((W : Int) * (H : Int) * 4))
    (encodeIFDList_valid _ _)
  refine ⟨ifdBytes, ?_, ?_, ?_⟩
  · have hraster : encodeGrayFloat32 p.Pix (W : Int) (H : Int) p.Stride false =
        some (rasterBytes p.Pix W H p.Stride) :=
      encodeGrayFloat32_eq p.Pix W H p.Stride h1 h2
    unfold Encode
    simp only [EncodeInput.boundsRect, Rectangle.Size, hdx, hdy, hraster, hifd]
  · simp [encodeIFDList]
  · simp [encodeIFDList, u32]

/-- Witness for C2: a 2×1 float buffer holding the bits of 1.0f and 2.0f
(0x3F800000, 0x40000000). -/
theorem encode_grayfloat32_stream_witness :
    ((⟨[1065353216, 1073741824], 2, ⟨⟨0, 0⟩, ⟨2, 1⟩⟩⟩ : GrayFloat32).Rect.Dx = ((2 : Nat) : Int) ∧
        (⟨[1065353216, 1073741824], 2, ⟨⟨0, 0⟩, ⟨2, 1⟩⟩⟩ : GrayFloat32).Rect.Dy = ((1 : Nat) : Int) ∧
        (⟨[1065353216, 1073741824], 2, ⟨⟨0, 0⟩, ⟨2, 1⟩⟩⟩ : GrayFloat32).WF) ∧
      rasterBytes [1065353216, 1073741824] 2 1 2 = [0, 0, 128, 63, 0, 0, 0, 64] ∧
      (∃ ifdBytes,
        Encode (.grayFloat32 ⟨[1065353216, 1073741824], 2, ⟨⟨0, 0⟩, ⟨2, 1⟩⟩⟩) =
          some ([0x49, 0x49, 0x2A, 0x00] ++ le32I (((2 : Nat) : Int) * ((1 : Nat) : Int) * 4 + 8) ++
            rasterBytes [1065353216, 1073741824] 2 1 2 ++ ifdBytes) ∧
        ⟨339, 3, [3]⟩ ∈ encodeIFDList (.grayFloat32 ⟨[1065353216, 1073741824], 2, ⟨⟨0, 0⟩, ⟨2, 1⟩⟩⟩)
          (((2 : Nat) : Int) * ((1 : Nat) : Int) * 4) ∧
        ⟨339, 3, [1]⟩ ∉ encodeIFDList (.grayFloat32 ⟨[1065353216, 1073741824], 2, ⟨⟨0, 0⟩, ⟨2, 1⟩⟩⟩)
          (((2 : Nat) : Int) * ((1 : Nat) : Int) * 4)) :=
  ⟨⟨by decide, by decide, by decide⟩, by decide,
    encode_grayfloat32_stream 2 1 ⟨[1065353216, 1073741824], 2, ⟨⟨0, 0⟩, ⟨2, 1⟩⟩⟩
      (by decide) (by decide) (by decide)⟩

/-- C9: an image that is neither *Gray32 nor *GrayFloat32 is accepted by
Encode without error: the 8 header bytes carry the IFD offset computed as
8 + W*H*4 (4 bytes per pixel assumed), zero raster bytes are written (the
IFD follows the header immediately), and the StripByteCounts entry is
W*H*4. -/
theorem encode_other_default (W H : Nat) (b : Rectangle)
    (hdx : b.Dx = (W : Int)) (hdy : b.Dy = (H : Int))
    (hfit : 8 + W * H * 4 < 2 ^ 32) :
    ∃ ifdBytes,
      writeIFDBytes ((W : Int) * (H : Int) * 4 + 8)
          (encodeIFDList (.other b) ((W : Int) * (H : Int) * 4)) = some ifdBytes ∧
      Encode (.other b) =
        some ([0x49, 0x49, 0x2A, 0x00] ++ le32 (8 + W * H * 4) ++ ifdBytes) ∧
      ⟨279, 4, [W * H * 4]⟩ ∈ encodeIFDList (.other b) ((W : Int) * (H : Int) * 4) := by
  obtain ⟨ifdBytes, hifd⟩ := writeIFDBytes_isSome ((W : Int) * (H : Int) * 4 + 8)
    (encodeIFDList (.other b) ((W : Int) * (H : Int) * 4))
    (encodeIFDList_valid _ _)
  have hil : u32 ((W : Int) * (H : Int) * 4) = W * H * 4 := by
    rw [show (W : Int) * (H : Int) * 4 = ((W * H * 4 : Nat) : Int) by push_cast; ring]
    rw [u32_natCast]
    exact Nat.mod_eq_of_lt (by omega)
  refine ⟨ifdBytes, hifd, ?_, ?_⟩
  · have hoffsetbytes : le32I ((W : Int) * (H : Int) * 4 + 8) = le32 (8 + W * H * 4) := by
      unfold le32I
      rw [show (W : Int) * (H : Int) * 4 + 8 = ((W * H * 4 + 8 : Nat) : Int) by push_cast; ring]
      rw [u32_natCast, Nat.mod_eq_of_lt (by omega)]
      congr 1
      omega
    unfold Encode
    simp only [EncodeInput.boundsRect, Rectangle.Size, hdx, hdy, hifd, hoffsetbytes,
      List.append_nil]
  · simp only [encodeIFDList, EncodeInput.boundsRect, Rectangle.Size, hil]
    simp

/-- Witness for C9: a 3×2 rectangle for a foreign image type. -/
theorem encode_other_default_witness :
    ((⟨⟨0, 0⟩, ⟨3, 2⟩⟩ : Rectangle).Dx = ((3 : Nat) : Int) ∧
        (⟨⟨0, 0⟩, ⟨3, 2⟩⟩ : Rectangle).Dy = ((2 : Nat) : Int) ∧ 8 + 3 * 2 * 4 < 2 ^ 32) ∧
      (∃ ifdBytes,
        writeIFDBytes (((3 : Nat) : Int) * ((2 : Nat) : Int) * 4 + 8)
            (encodeIFDList (.other ⟨⟨0, 0⟩, ⟨3, 2⟩⟩)
              (((3 : Nat) : Int) * ((2 : Nat) : Int) * 4)) = some ifdBytes ∧
        Encode (.other ⟨⟨0, 0⟩, ⟨3, 2⟩⟩) =
          some ([0x49, 0x49, 0x2A, 0x00] ++ le32 (8 + 3 * 2 * 4) ++ ifdBytes) ∧
        ⟨279, 4, [3 * 2 * 4]⟩ ∈ encodeIFDList (.other ⟨⟨0, 0⟩, ⟨3, 2⟩⟩)
          (((3 : Nat) : Int) * ((2 : Nat) : Int) * 4)) :=
  ⟨⟨by decide, by decide, by decide⟩,
    encode_other_default 3 2 ⟨⟨0, 0⟩, ⟨3, 2⟩⟩ (by decide) (by decide) (by decide)⟩

/-- C10: ImageWidth and ImageLength are serialized with the 2-byte short
datatype, so the value fields read back from the output stream (at byte
offsets 10 and 22 of the IFD block: first and second serialized entries)
hold the dimensions reduced modulo 65536, silently truncated for
dimensions above 65535 and exact for dimensions up to 65535. -/
theorem dims_serialized_as_short (m : EncodeInput) (W H : Nat) (il off : Int)
    (hdx : m.boundsRect.Dx = (W : Int)) (hdy : m.boundsRect.Dy = (H : Int))
    (bs : List Nat)
    (hbs : writeIFDBytes off (encodeIFDList m il) = some bs) :
    (readLE16 bs 10 = W % 65536 ∧ (W < 65536 → readLE16 bs 10 = W)) ∧
      (readLE16 bs 22 = H % 65536 ∧ (H < 65536 → readLE16 bs 22 = H)) := by
  have hsort : ∃ rest, sortByTag (encodeIFDList m il) =
      ⟨256, 3, [u32 m.boundsRect.Size.X]⟩ :: ⟨257, 3, [u32 m.boundsRect.Size.Y]⟩ :: rest := by
    cases m <;> exact ⟨_, rfl⟩
  obtain ⟨rest, hs⟩ := hsort
  obtain ⟨hv10, hv22⟩ := writeIFD_first_two off (encodeIFDList m il) _ _ rest hs bs hbs
  have hx : u32 m.boundsRect.Size.X = W % 2 ^ 32 := by
    have : m.boundsRect.Size.X = m.boundsRect.Dx := rfl
    rw [this, hdx, u32_natCast]
  have hy : u32 m.boundsRect.Size.Y = H % 2 ^ 32 := by
    have : m.boundsRect.Size.Y = m.boundsRect.Dy := rfl
    rw [this, hdy, u32_natCast]
  rw [hx] at hv10
  rw [hy] at hv22
  refine ⟨⟨?_, fun hw => ?_⟩, ⟨?_, fun hh => ?_⟩⟩ <;> omega

/-- Witness for C10: a 70000×2 image (width above 65535): the serialized
ImageWidth field reads back as 70000 % 65536 = 4464, and the height 2 is
exact. -/
theorem dims_serialized_as_short_witness :
    ((EncodeInput.other ⟨⟨0, 0⟩, ⟨70000, 2⟩⟩).boundsRect.Dx = ((70000 : Nat) : Int) ∧
        (EncodeInput.other ⟨⟨0, 0⟩, ⟨70000, 2⟩⟩).boundsRect.Dy = ((2 : Nat) : Int)) ∧
      ∃ bs, writeIFDBytes 16 (encodeIFDList (.other ⟨⟨0, 0⟩, ⟨70000, 2⟩⟩) 8) = some bs ∧
        ((readLE16 bs 10 = 70000 % 65536 ∧ (70000 < 65536 → readLE16 bs 10 = 70000)) ∧
          (readLE16 bs 22 = 2 % 65536 ∧ (2 < 65536 → readLE16 bs 22 = 2))) := by
  refine ⟨⟨by decide, by decide⟩, ?_⟩
  obtain ⟨bs, hbs⟩ := writeIFDBytes_isSome 16 (encodeIFDList (.other ⟨⟨0, 0⟩, ⟨70000, 2⟩⟩) 8)
    (encodeIFDList_valid _ _)
  exact ⟨bs, hbs,
    dims_serialized_as_short (.other ⟨⟨0, 0⟩, ⟨70000, 2⟩⟩) 70000 2 8 16
      (by decide) (by decide) bs hbs⟩

/-- C6: for every well-formed buffer (Gray32 or GrayFloat32), every point
(x,y) inside its bounds and every 32-bit value v, set(x,y,v) succeeds and
a subsequent get(x,y) returns a color whose sample value is v. -/
theorem set_then_get (p : Gray32) (q : GrayFloat32) (x y : Int) (v : Nat)
    (hwfp : p.WF) (hinp : (Point.mk x y).In p.Rect = true)
    (hwfq : q.WF) (hinq : (Point.mk x y).In q.Rect = true) :
    (∃ p2, p.SetGray32 x y ⟨v⟩ = some p2 ∧ p2.Gray32At x y = some ⟨v⟩) ∧
      (∃ q2, q.SetGray32 x y ⟨v⟩ = some q2 ∧ q2.Gray32At x y = some ⟨v⟩) := by
  constructor
  · obtain ⟨hi0, hilt⟩ := gray32_offset_in_range p x y hwfp hinp
    have hnat : (p.PixOffset x y).toNat < p.Pix.length := by omega
    refine ⟨⟨p.Pix.set (p.PixOffset x y).toNat v, p.Stride, p.Rect⟩, ?_, ?_⟩
    · simp [Gray32.SetGray32, hinp, hi0, hnat]
    · have hlen : (p.PixOffset x y).toNat < (p.Pix.set (p.PixOffset x y).toNat v).length := by
        simpa using hnat
      simp only [Gray32.Gray32At, Gray32.PixOffset, hinp, Bool.true_eq_false, if_false,
        sliceGet]
      rw [dif_pos ⟨hi0, hlen⟩]
      simp [List.get_eq_getElem, List.getElem_set_self]
  · obtain ⟨hi0, hilt⟩ := grayFloat32_offset_in_range q x y hwfq hinq
    have hnat : (q.PixOffset x y).toNat < q.Pix.length := by omega
    refine ⟨⟨q.Pix.set (q.PixOffset x y).toNat v, q.Stride, q.Rect⟩, ?_, ?_⟩
    · simp [GrayFloat32.SetGray32, hinq, hi0, hnat]
    · have hlen : (q.PixOffset x y).toNat < (q.Pix.set (q.PixOffset x y).toNat v).length := by
        simpa using hnat
      simp only [GrayFloat32.Gray32At, GrayFloat32.PixOffset, hinq, Bool.true_eq_false,
        if_false, sliceGet]
      rw [dif_pos ⟨hi0, hlen⟩]
      simp [List.get_eq_getElem, List.getElem_set_self]

/-- Witness for C6: a concrete 2×2 buffer, point (1,0), value 7. -/
theorem set_then_get_witness :
    (Tiff.Gray32.mk [0, 0, 0, 0] 2 ⟨⟨0, 0⟩, ⟨2, 2⟩⟩).WF ∧
      (Point.mk 1 0).In (⟨⟨0, 0⟩, ⟨2, 2⟩⟩ : Rectangle) = true ∧
      ((∃ p2, (Tiff.Gray32.mk [0, 0, 0, 0] 2 ⟨⟨0, 0⟩, ⟨2, 2⟩⟩).SetGray32 1 0 ⟨7⟩ = some p2 ∧
          p2.Gray32At 1 0 = some ⟨7⟩) ∧
        (∃ q2, (Tiff.GrayFloat32.mk [0, 0, 0, 0] 2 ⟨⟨0, 0⟩, ⟨2, 2⟩⟩).SetGray32 1 0 ⟨7⟩ = some q2 ∧
          q2.Gray32At 1 0 = some ⟨7⟩)) :=
  ⟨by decide, by decide,
    set_then_get (Tiff.Gray32.mk [0, 0, 0, 0] 2 ⟨⟨0, 0⟩, ⟨2, 2⟩⟩)
      (Tiff.GrayFloat32.mk [0, 0, 0, 0] 2 ⟨⟨0, 0⟩, ⟨2, 2⟩⟩) 1 0 7
      (by decide) (by decide) (by decide) (by decide)⟩

/-- C7: for every buffer and every point outside its bounds, get returns
the zero-value color, set returns the buffer unchanged, and neither
panics (both return `some`). -/
theorem out_of_bounds_noop (p : Gray32) (q : GrayFloat32) (x y : Int)
    (c : Gray32Color) (c2 : GrayFloat32Color)
    (houtp : (Point.mk x y).In p.Rect = false)
    (houtq : (Point.mk x y).In q.Rect = false) :
    (p.Gray32At x y = some ⟨0⟩ ∧ p.SetGray32 x y c = some p) ∧
      (q.Gray32At x y = some ⟨0⟩ ∧ q.SetGray32 x y c2 = some q) := by
  refine ⟨⟨?_, ?_⟩, ?_, ?_⟩
  · simp [Gray32.Gray32At, houtp]
  · simp [Gray32.SetGray32, houtp]
  · simp [GrayFloat32.Gray32At, houtq]
  · simp [GrayFloat32.SetGray32, houtq]

/-- Witness for C7: point (5,5) outside a 2×2 rectangle. -/
theorem out_of_bounds_noop_witness :
    (Point.mk 5 5).In (⟨⟨0, 0⟩, ⟨2, 2⟩⟩ : Rectangle) = false ∧
      (((Tiff.Gray32.mk [1, 2, 3, 4] 2 ⟨⟨0, 0⟩, ⟨2, 2⟩⟩).Gray32At 5 5 = some ⟨0⟩ ∧
          (Tiff.Gray32.mk [1, 2, 3, 4] 2 ⟨⟨0, 0⟩, ⟨2, 2⟩⟩).SetGray32 5 5 ⟨9⟩ =
            some (Tiff.Gray32.mk [1, 2, 3, 4] 2 ⟨⟨0, 0⟩, ⟨2, 2⟩⟩)) ∧
        ((Tiff.GrayFloat32.mk [1, 2, 3, 4] 2 ⟨⟨0, 0⟩, ⟨2, 2⟩⟩).Gray32At 5 5 = some ⟨0⟩ ∧
          (Tiff.GrayFloat32.mk [1, 2, 3, 4] 2 ⟨⟨0, 0⟩, ⟨2, 2⟩⟩).SetGray32 5 5 ⟨9⟩ =
            some (Tiff.GrayFloat32.mk [1, 2, 3, 4] 2 ⟨⟨0, 0⟩, ⟨2, 2⟩⟩))) :=
  ⟨by decide,
    out_of_bounds_noop (Tiff.Gray32.mk [1, 2, 3, 4] 2 ⟨⟨0, 0⟩, ⟨2, 2⟩⟩)
      (Tiff.GrayFloat32.mk [1, 2, 3, 4] 2 ⟨⟨0, 0⟩, ⟨2, 2⟩⟩) 5 5 ⟨9⟩ ⟨9⟩
      (by decide) (by decide)⟩

/-- C8: for every buffer p and rectangle r whose intersection with the
bounds of p is empty, SubImage returns (without panicking) a fresh buffer
with an empty sample array and the (empty) zero rectangle, not a view of
the backing array of p. -/
theorem subimage_empty (p : Gray32) (q : GrayFloat32) (r : Rectangle)
    (hp : (r.Intersect p.Rect).Empty = true)
    (hq : (r.Intersect q.Rect).Empty = true) :
    (p.SubImage r = some ⟨[], 0, ZR⟩ ∧ q.SubImage r = some ⟨[], 0, ZR⟩) ∧
      Rectangle.Empty ZR = true := by
  refine ⟨⟨?_, ?_⟩, by decide⟩
  · simp [Gray32.SubImage, hp]
  · simp [GrayFloat32.SubImage, hq]

/-- Witness for C8: a rectangle disjoint from a 2×2 buffer. -/
theorem subimage_empty_witness :
    ((⟨⟨10, 10⟩, ⟨12, 12⟩⟩ : Rectangle).Intersect (⟨⟨0, 0⟩, ⟨2, 2⟩⟩ : Rectangle)).Empty = true ∧
      (((Tiff.Gray32.mk [1, 2, 3, 4] 2 ⟨⟨0, 0⟩, ⟨2, 2⟩⟩).SubImage ⟨⟨10, 10⟩, ⟨12, 12⟩⟩ =
            some ⟨[], 0, ZR⟩ ∧
          (Tiff.GrayFloat32.mk [1, 2, 3, 4] 2 ⟨⟨0, 0⟩, ⟨2, 2⟩⟩).SubImage ⟨⟨10, 10⟩, ⟨12, 12⟩⟩ =
            some ⟨[], 0, ZR⟩) ∧
        Rectangle.Empty ZR = true) :=
  ⟨by decide,
    subimage_empty (Tiff.Gray32.mk [1, 2, 3, 4] 2 ⟨⟨0, 0⟩, ⟨2, 2⟩⟩)
      (Tiff.GrayFloat32.mk [1, 2, 3, 4] 2 ⟨⟨0, 0⟩, ⟨2, 2⟩⟩) ⟨⟨10, 10⟩, ⟨12, 12⟩⟩
      (by decide) (by decide)⟩

/-- C3 (code bug): the luma computation is performed entirely in uint32
arithmetic and then shifted right by 32 bits, so it returns 0 for every
input; in particular for the 16-bit white color (65535,65535,65535,65535)
the model returns sample 0, while the claimed 64-bit fixed-point formula
floor((1284195221*r + 2521145802*g + 489626272*b + 2^31) / 2^32)
evaluates to 65535 there. -/
theorem luma_always_zero :
    (∀ r g b : Nat, lumaUint32 r g b = 0) ∧
      gray32Model (.generic 65535 65535 65535 65535) = .gray32C ⟨0⟩ ∧
      (1284195221 * 65535 + 2521145802 * 65535 + 489626272 * 65535 + 2 ^ 31) / 2 ^ 32 =
        65535 := by
  refine ⟨fun r g b => ?_, by decide, by decide⟩
  exact Nat.div_eq_of_lt (Nat.mod_lt _ (by norm_num))

/-- C4 (code bug): gray32FloatModel type-checks against Gray32Color, not
GrayFloat32Color, so a GrayFloat32Color does not pass through unchanged:
it is sent through the (always-zero) luma computation and comes back as
Gray32Color 0. The Gray32Model half of the claim does hold. -/
theorem float_model_not_identity :
    gray32FloatModel (.grayFloat32C ⟨5⟩) = .gray32C ⟨0⟩ ∧
      gray32FloatModel (.grayFloat32C ⟨5⟩) ≠ .grayFloat32C ⟨5⟩ ∧
      (∀ c : Gray32Color, gray32Model (.gray32C c) = .gray32C c) := by
  refine ⟨by decide, by decide, fun c => rfl⟩

end Tiff
